import Mathlib

/-!
Shallow embedding of `src/ntbs.hpp` (namespace `ltl::ntbs`): compile-time
concatenation (`cat`) and slicing (`cut`) of null-terminated byte strings,
together with the generic sequence-access protocol (`data` / `size` /
`extent`) and the `array<N> == rhs` comparison operator.

Bytes are modelled as natural numbers (only copying and zero-tests occur).
An input sequence is one of the three supported representations:
a lone `char` (access-protocol extent 2, one physical byte), a raw
`char[N]` array, or the library's own `ntbs::array<N>`.
-/

namespace ntbs

/-- a byte of the modelled program; only equality with 0 ever matters. -/
abbrev Byte := Nat

/-- the three C++ sequence representations accepted by `cat` and `cut`:
`chr c` is a lone `char` (extent 2, a single physical byte),
`carr bs` is `char[N]` with `N = bs.length`,
`abuf bs` is `ntbs::array<N>` with `N = bs.length`. -/
inductive Seq where
  | chr  (c : Byte)
  | carr (bs : List Byte)
  | abuf (bs : List Byte)
deriving DecidableEq

/-- embedding of `extent_v<A>`: the access-protocol length, terminator included
(`extent<char> = 2`, `extent<char[N]> = N`, `extent<array<N>> = N`). -/
def extent : Seq → Nat
  | .chr _  => 2
  | .carr bs => bs.length
  | .abuf bs => bs.length

/-- embedding of `sizeof(A)`: the size of the C++ object in bytes: 1 for a lone `char`,
`N` for `char[N]` and `array<N>`. -/
def sizeofB : Seq → Nat
  | .chr _  => 1
  | .carr bs => bs.length
  | .abuf bs => bs.length

/-- the physical bytes reachable through `data(v)`: a lone `char`
exposes exactly one byte (its implicit terminator is not stored). -/
def dataB : Seq → List Byte
  | .chr c  => [c]
  | .carr bs => bs
  | .abuf bs => bs

/-- the conceptual NTBS denoted by a sequence, implicit terminator
included for a lone `char`. -/
def seqBytes : Seq → List Byte
  | .chr c  => [c, 0]
  | .carr bs => bs
  | .abuf bs => bs

/-- a value-initialized (all-zero) buffer of `cap` bytes into which the
bytes `w` have been copied sequentially from position 0
(`array<cap> acc{};` followed by in-order writes of `w`). -/
def fillZero (cap : Nat) (w : List Byte) : List Byte :=
  w ++ List.replicate (cap - w.length) 0

/-- the message thrown by the null checks in `cat` and `cut`
(the source uses this same text in both). -/
def nullMsg : String := "ntbs::cut arg not null-terminated"

/-- the size fold of `cat`:
`((extent_v<Cs> + sizeof...(sep) - 1) + ... + (-sizeof...(sep) + 1))`,
a right fold over the input extents `Ls` with separator byte count `S`. -/
def catSize (S : Nat) (Ls : List Nat) : Int :=
  Ls.foldr (fun L t => (L : Int) + S - 1 + t) (1 - (S : Int))

/-- the bytes `copy_n(data(cs), extent_v<Cs> - 1, p)` copies for one
input: its first `extent - 1` physical bytes. -/
def content (c : Seq) : List Byte :=
  (dataB c).take (extent c - 1)

/-- guard of the null check in `cat`:
`if constexpr ( sizeof(Cs) != 1 || extent_v<Cs> == 1 )`. -/
def catCheckPerformed (c : Seq) : Bool :=
  sizeofB c != 1 || extent c == 1

/-- whether the `cat` null check throws for input `c`:
the guard holds and `data(c)[sizeof(Cs) - 1] != 0`. -/
def catCheckFails (c : Seq) : Bool :=
  catCheckPerformed c && (dataB c).getD (sizeofB c - 1) 0 != 0

/-- whether the `cut` null check throws for input `a`:
`if constexpr ( sizeof(A) != 1 || N == 1 ) if ( data(a)[N - 1] != 0 )`
with `N = extent_v<A>`. -/
def cutCheckFails (a : Seq) : Bool :=
  (sizeofB a != 1 || extent a == 1) && (dataB a).getD (extent a - 1) 0 != 0

/-- the write loop of `cat`:
`(( p = p == acc ? p : (((*p++ = sep), ...), p),
   p = copy_n(data(cs), extent_v<Cs>-1, p)), ...);`
`w` is the list of bytes written so far (so `w = []` iff `p == acc`);
each input appends the separator bytes (only when `p != acc`) and then
its own content. -/
def catLoop (sep : List Byte) : List Seq → List Byte → List Byte
  | [], w => w
  | c :: cs, w => catLoop sep cs ((if w = [] then w else w ++ sep) ++ content c)

/-- all bytes written by the `cat` loop, in order, starting from the
buffer start. -/
def catWritten (sep : List Byte) (cs : List Seq) : List Byte :=
  catLoop sep cs []

/-- the buffer returned by `cat` (ignoring the null check): the
value-initialized `array` of the computed static size with the loop's
bytes written from position 0. -/
def catBufBytes (sep : List Byte) (cs : List Seq) : List Byte :=
  fillZero (catSize sep.length (cs.map extent)).toNat (catWritten sep cs)

/-- embedding of `cat<sep...>(cs...)`: when `check` (the `NTBS_NULL_CHECK` macro) is
set and some input fails the null check, the call throws before the
output buffer is declared or written; otherwise it returns the filled
buffer. -/
def cat (check : Bool) (sep : List Byte) (cs : List Seq) : Except String (List Byte) :=
  if check && cs.any catCheckFails then .error nullMsg
  else .ok (catBufBytes sep cs)

/-- index resolution of `cut`:
`ind = [](int32_t i) { return i < 0 ? N + i : i; }`. -/
def ind (N i : Int) : Int := if i < 0 then N + i else i

/-- embedding of `cut<B,E>(a)`: here `none` models the `static_assert( 0 <= b && b <= e
&& e <= N )` failing (a translation error, before any run-time step);
otherwise the null check may throw, else the buffer
`array<M+1> chars{}; copy_n(data(a) + b, M, chars)` with `M = e - b`
is returned. -/
def cut (check : Bool) (B E : Int) (a : Seq) : Option (Except String (List Byte)) :=
  if 0 ≤ ind (extent a) B ∧ ind (extent a) B ≤ ind (extent a) E ∧
      ind (extent a) E ≤ (extent a : Int) then
    some (if check && cutCheckFails a then .error nullMsg
          else .ok (fillZero ((ind (extent a) E - ind (extent a) B).toNat + 1)
              (((dataB a).drop (ind (extent a) B).toNat).take
                (ind (extent a) E - ind (extent a) B).toNat)))
  else none

/-- the `array<L> == rhs` comparison loop:
`for (i = 0; i != L; ++i) if ( l[i] != r[i] ) return false; return true;`
recursing on the left (length-`L`) operand; exhausting the right list
first models the loop reading past the physical storage of `rhs`
(undefined behaviour, a failure in constant evaluation), hence `none`. -/
def eqLoop : List Byte → List Byte → Option Bool
  | [], _ => some true
  | _ :: _, [] => none
  | l :: ls, r :: rs => if l != r then some false else eqLoop ls rs

/-- embedding of `operator==(array<L> const& lhs, R const& rhs)`:
`L == extent_v<R> && lambda(lhs.data, data(rhs))`; the loop only runs
when the extents agree. -/
def eqOp (lhs : List Byte) (rhs : Seq) : Option Bool :=
  if lhs.length = extent rhs then eqLoop lhs (dataB rhs) else some false

/-- a properly null-terminated sequence: the physical last byte is 0
(a lone `char` is always well terminated — its terminator is implicit). -/
def wellTerminated : Seq → Bool
  | .chr _ => true
  | .carr bs => bs.getLast? == some 0
  | .abuf bs => bs.getLast? == some 0

/-- the join the spec's words describe: first item's bytes, then, before
each later item, the full separator sequence. -/
def joinSep (sep : List Byte) : List (List Byte) → List Byte
  | [] => []
  | x :: xs => x ++ (xs.map (fun y => sep ++ y)).flatten

/-- the output content asserted by the spec and claim C2: each input's
content in order, the full separator sequence before every input except
the first, then the final terminator. -/
def specCatBytes (sep : List Byte) (cs : List Seq) : List Byte :=
  joinSep sep (cs.map content) ++ [0]

/-- the equality asserted by the spec and claim C8: lengths reported by
the access protocol agree and the bytes at every index in `[0, L)` are
pairwise equal (for a lone `char` the byte at index 1 is its implicit
terminator). -/
def specEq (lhs : List Byte) (rhs : Seq) : Bool :=
  lhs.length == extent rhs && lhs == seqBytes rhs

/-- the check coverage asserted by claim C5: the null check is performed
on every input except those of reported length 1. -/
def specCheckPerformed (c : Seq) : Bool :=
  extent c != 1

/-- the sum of the spec's formula: `Σ (Li - 1)` over the input extents. -/
def sumM1 (Ls : List Nat) : Int :=
  Ls.foldr (fun L t => (L : Int) - 1 + t) 0

/-- the output size asserted by the spec and claim C1:
`Σ(Li - 1) + S * max(0, k - 1) + 1`. -/
def specCatSize (S : Nat) (Ls : List Nat) : Int :=
  sumM1 Ls + S * max 0 ((Ls.length : Int) - 1) + 1

theorem catSize_eq (S : Nat) : ∀ Ls : List Nat,
    catSize S Ls = sumM1 Ls + S * Ls.length + 1 - S := by
  intro Ls
  induction Ls with
  | nil =>
      show (1 : Int) - S = 0 + S * ((List.length ([] : List Nat) : Nat) : Int) + 1 - S
      simp
  | cons L t ih =>
      have h1 : catSize S (L :: t) = (L : Int) + S - 1 + catSize S t := rfl
      have h2 : sumM1 (L :: t) = (L : Int) - 1 + sumM1 t := rfl
      rw [h1, h2, ih, List.length_cons]
      push_cast
      ring

/-- C1: for every `cat` call whose returned buffer exists (the computed
static size is at least 1, as `array<M>` requires), the static size of
the returned buffer equals `Σ(Li - 1) + S * max(0, k - 1) + 1`; in
particular, for two inputs it equals `(La - 1) + (Lb - 1) + S + 1`, and
for zero inputs it equals 1. -/
theorem cat_size_law (S La Lb : Nat) (Ls : List Nat)
    (hv : 1 ≤ catSize S Ls) :
    catSize S Ls = specCatSize S Ls ∧
    catSize S [La, Lb] = ((La : Int) - 1) + ((Lb : Int) - 1) + S + 1 ∧
    catSize 0 [] = 1 := by
  refine ⟨?_, ?_, rfl⟩
  · cases Ls with
    | nil =>
        have h0 : catSize S ([] : List Nat) = 1 - (S : Int) := rfl
        rw [h0] at hv ⊢
        have hS0 : S = 0 := by omega
        subst hS0
        decide
    | cons L t =>
        rw [catSize_eq]
        unfold specCatSize
        have hm : max (0 : Int) (((L :: t).length : Int) - 1)
            = ((L :: t).length : Int) - 1 := by
          rw [max_eq_right]
          rw [List.length_cons]
          push_cast
          omega
        rw [hm, List.length_cons]
        push_cast
        ring
  · have h2 : catSize S [La, Lb]
        = (La : Int) + S - 1 + ((Lb : Int) + S - 1 + (1 - S)) := rfl
    rw [h2]
    ring

theorem cat_size_law_witness :
    1 ≤ catSize 2 [6, 6] ∧
    (catSize 2 [6, 6] = specCatSize 2 [6, 6] ∧
     catSize 2 [6, 6] = ((6 : Int) - 1) + ((6 : Int) - 1) + 2 + 1 ∧
     catSize 0 [] = 1) :=
  ⟨by decide, cat_size_law 2 6 6 [6, 6] (by decide)⟩

/-- C9: for the literal Hello-world byte string of static length 14,
`cut<0,6>` yields the 7-byte buffer holding the first word and comma,
`cut<-7>` (default end) yields the 7-byte buffer holding the second
word and bang, and `cat<' '>` of those two buffers reconstructs a
buffer equal to the original 14-byte literal. -/
theorem hello_world_round_trip :
    cut true 0 6 (.carr [72, 101, 108, 108, 111, 44, 32, 119, 111, 114, 108, 100, 33, 0])
      = some (.ok [72, 101, 108, 108, 111, 44, 0]) ∧
    cut true (-7) (-1) (.carr [72, 101, 108, 108, 111, 44, 32, 119, 111, 114, 108, 100, 33, 0])
      = some (.ok [119, 111, 114, 108, 100, 33, 0]) ∧
    cat true [32] [.abuf [72, 101, 108, 108, 111, 44, 0], .abuf [119, 111, 114, 108, 100, 33, 0]]
      = .ok [72, 101, 108, 108, 111, 44, 32, 119, 111, 114, 108, 100, 33, 0] ∧
    ([72, 101, 108, 108, 111, 44, 0] : List Byte).length = 7 ∧
    ([119, 111, 114, 108, 100, 33, 0] : List Byte).length = 7 ∧
    ([72, 101, 108, 108, 111, 44, 32, 119, 111, 114, 108, 100, 33, 0] : List Byte).length = 14 ∧
    eqOp [72, 101, 108, 108, 111, 44, 32, 119, 111, 114, 108, 100, 33, 0]
      (.carr [72, 101, 108, 108, 111, 44, 32, 119, 111, 114, 108, 100, 33, 0]) = some true :=
  ⟨rfl, rfl, rfl, rfl, rfl, rfl, rfl⟩

/-- C3: with the null check enabled, `cat` (and `cut`) on inputs among
which one fails the termination check throws the descriptive failure
value; the embedding returns the error without ever constructing a
buffer, mirroring that in the source the checks run before the output
array is declared, so no partially written output is observable from a
failed call. The concrete 5-byte array `{'t','h','r','o','w'}` makes
both `cat` and `cut` throw when checked; with the check disabled no
detection occurs and both calls return normally. -/
theorem cat_cut_throw_eagerly (sep : List Byte) (cs : List Seq)
    (h : ∃ c ∈ cs, catCheckFails c = true) :
    cat true sep cs = .error nullMsg ∧
    cat false sep cs = .ok (catBufBytes sep cs) ∧
    cat true [] [.carr [116, 104, 114, 111, 119]] = .error nullMsg ∧
    cut true 0 (-1) (.carr [116, 104, 114, 111, 119]) = some (.error nullMsg) ∧
    cat false [] [.carr [116, 104, 114, 111, 119]] = .ok [116, 104, 114, 111, 0] ∧
    cut false 0 (-1) (.carr [116, 104, 114, 111, 119]) = some (.ok [116, 104, 114, 111, 0]) := by
  refine ⟨?_, rfl, rfl, rfl, rfl, rfl⟩
  have ha : cs.any catCheckFails = true := by
    rcases h with ⟨c, hc, hf⟩
    exact List.any_eq_true.mpr ⟨c, hc, hf⟩
  unfold cat
  rw [ha]
  rfl

theorem cat_cut_throw_eagerly_witness :
    (∃ c ∈ [Seq.carr [116, 104, 114, 111, 119]], catCheckFails c = true) ∧
    (cat true [] [.carr [116, 104, 114, 111, 119]] = .error nullMsg ∧
     cat false [] [.carr [116, 104, 114, 111, 119]]
       = .ok (catBufBytes [] [.carr [116, 104, 114, 111, 119]]) ∧
     cat true [] [.carr [116, 104, 114, 111, 119]] = .error nullMsg ∧
     cut true 0 (-1) (.carr [116, 104, 114, 111, 119]) = some (.error nullMsg) ∧
     cat false [] [.carr [116, 104, 114, 111, 119]] = .ok [116, 104, 114, 111, 0] ∧
     cut false 0 (-1) (.carr [116, 104, 114, 111, 119]) = some (.ok [116, 104, 114, 111, 0])) :=
  ⟨by decide, cat_cut_throw_eagerly [] [.carr [116, 104, 114, 111, 119]] (by decide)⟩

/-- C4: the slice bounds of `cut<B,E>` are validated, after resolving
negative indices against the static input length `N`, as
`0 ≤ begin ≤ end ≤ N`; a violation yields no buffer at all (the
`static_assert` fails during translation — modelled by `none`), and the
outcome of the validation depends only on the static extent and the
compile-time indices, never on the run-time byte contents or on the
null-check mode. `cut<0,20>` on the length-6 literal fails. -/
theorem cut_bounds_static (check chk : Bool) (B E : Int) (a b : Seq)
    (hN : extent a = extent b) :
    ((cut check B E a).isSome ↔
      (0 ≤ ind (extent a) B ∧ ind (extent a) B ≤ ind (extent a) E ∧
       ind (extent a) E ≤ (extent a : Int))) ∧
    ((cut check B E a).isSome ↔ (cut chk B E b).isSome) ∧
    cut check 0 20 (.carr [115, 104, 111, 114, 116, 0]) = none := by
  refine ⟨?_, ?_, rfl⟩
  · unfold cut
    by_cases hP : (0 ≤ ind (extent a) B ∧ ind (extent a) B ≤ ind (extent a) E ∧
        ind (extent a) E ≤ (extent a : Int))
    · rw [if_pos hP]
      simp [hP]
    · rw [if_neg hP]
      simp [hP]
  · unfold cut
    rw [hN]
    by_cases hP : (0 ≤ ind (extent b) B ∧ ind (extent b) B ≤ ind (extent b) E ∧
        ind (extent b) E ≤ (extent b : Int))
    · rw [if_pos hP, if_pos hP]
      simp
    · rw [if_neg hP, if_neg hP]

theorem cut_bounds_static_witness :
    extent (Seq.carr [115, 104, 111, 114, 116, 0]) = extent (Seq.carr [97, 98, 99, 100, 101, 0]) ∧
    (((cut true 0 20 (Seq.carr [115, 104, 111, 114, 116, 0])).isSome ↔
       (0 ≤ ind (extent (Seq.carr [115, 104, 111, 114, 116, 0])) 0 ∧
        ind (extent (Seq.carr [115, 104, 111, 114, 116, 0])) 0
          ≤ ind (extent (Seq.carr [115, 104, 111, 114, 116, 0])) 20 ∧
        ind (extent (Seq.carr [115, 104, 111, 114, 116, 0])) 20
          ≤ (extent (Seq.carr [115, 104, 111, 114, 116, 0]) : Int))) ∧
     ((cut true 0 20 (Seq.carr [115, 104, 111, 114, 116, 0])).isSome ↔
       (cut false 0 20 (Seq.carr [97, 98, 99, 100, 101, 0])).isSome) ∧
     cut true 0 20 (.carr [115, 104, 111, 114, 116, 0]) = none) :=
  ⟨by decide, cut_bounds_static true false 0 20 _ _ (by decide)⟩

/-- C5 counterexample: a lone `char` input (reported length 2) is the
case whose null check is skipped — `catCheckPerformed` is `false` for
`chr 120` although the claim requires every length-2 single-char input
to be checked — while a reported-length-1 input `char[1]{0}` is
checked, although the claim says length 1 is the only skipped case. -/
theorem check_coverage_cx :
    extent (.chr 120) = 2 ∧ catCheckPerformed (.chr 120) = false ∧
    specCheckPerformed (.chr 120) = true ∧
    extent (.carr [0]) = 1 ∧ catCheckPerformed (.carr [0]) = true ∧
    specCheckPerformed (.carr [0]) = false := by
  decide

/-- C5 amended: with the null check enabled, the check is skipped
exactly for lone `char` inputs (their terminator is implicit and not
stored, so there is no byte to inspect); every array input is checked,
including those of reported length 1, whose sole byte must be 0. -/
theorem check_coverage_amended (c : Seq) (bs : List Byte) :
    (catCheckPerformed c = false ↔ ∃ k, c = Seq.chr k) ∧
    catCheckFails (.carr bs) = (bs.getD (bs.length - 1) 0 != 0) ∧
    catCheckFails (.chr 120) = false := by
  refine ⟨?_, ?_, rfl⟩
  · cases c with
    | chr k =>
        simp only [catCheckPerformed, sizeofB, extent]
        simp
    | carr bs =>
        have ht : catCheckPerformed (.carr bs) = true := Bool.not_or_self _
        rw [ht]
        simp
    | abuf bs =>
        have ht : catCheckPerformed (.abuf bs) = true := Bool.not_or_self _
        rw [ht]
        simp
  · have ht : catCheckPerformed (.carr bs) = true := Bool.not_or_self _
    unfold catCheckFails
    rw [ht]
    simp [dataB, sizeofB]

/-- C7 counterexample: the claim quantifies over every `k ≥ 0`, but at
`k = 0` the begin index `-0 = 0` is non-negative and resolves to the
absolute position 0, not to `N - 0 = N`: on the length-1 literal the
call `cut<-0>` is the full slice, whereas a begin resolved to `N` with
default end `N - 1` would violate the bounds assertion. -/
theorem neg_index_cx :
    ind 1 (-0) = 0 ∧ ind 1 (-0) ≠ 1 - 0 ∧
    cut true (-0) (-1) (.carr [0]) = some (.ok [0]) :=
  ⟨rfl, by decide, rfl⟩

/-- C7 amended: for every `k ≥ 1` (so that `-k` is actually negative)
a begin index of `-k` resolves to the absolute position `N - k`, and
for every input of static length at least 7, `cut<-7>` with the
implicit default end `-1` equals `cut<N-7, N-1>`. -/
theorem neg_index_amended (N k : Int) (check : Bool) (a : Seq)
    (hk : 1 ≤ k) (h7 : 7 ≤ extent a) :
    ind N (-k) = N - k ∧
    cut check (-7) (-1) a
      = cut check ((extent a : Int) - 7) ((extent a : Int) - 1) a := by
  have hN : (7 : Int) ≤ (extent a : Int) := by exact_mod_cast h7
  constructor
  · unfold ind
    rw [if_pos (by omega)]
    ring
  · unfold cut
    have h1 : ind (extent a) (-7) = (extent a : Int) - 7 := by
      unfold ind
      rw [if_pos (by omega)]
      ring
    have h2 : ind (extent a) ((extent a : Int) - 7) = (extent a : Int) - 7 := by
      unfold ind
      rw [if_neg (by omega)]
    have h3 : ind (extent a) (-1) = (extent a : Int) - 1 := by
      unfold ind
      rw [if_pos (by omega)]
      ring
    have h4 : ind (extent a) ((extent a : Int) - 1) = (extent a : Int) - 1 := by
      unfold ind
      rw [if_neg (by omega)]
    rw [h1, h2, h3, h4]

theorem neg_index_amended_witness :
    (1 : Int) ≤ 1 ∧ 7 ≤ extent (Seq.carr [97, 98, 99, 100, 101, 102, 0]) ∧
    (ind 3 (-1) = 3 - 1 ∧
     cut true (-7) (-1) (Seq.carr [97, 98, 99, 100, 101, 102, 0])
       = cut true ((extent (Seq.carr [97, 98, 99, 100, 101, 102, 0]) : Int) - 7)
           ((extent (Seq.carr [97, 98, 99, 100, 101, 102, 0]) : Int) - 1)
           (Seq.carr [97, 98, 99, 100, 101, 102, 0])) :=
  ⟨by decide, by decide,
   neg_index_amended 3 1 true (Seq.carr [97, 98, 99, 100, 101, 102, 0]) (by decide) (by decide)⟩

theorem content_length (c : Seq) : (content c).length = extent c - 1 := by
  cases c with
  | chr k => rfl
  | carr bs =>
      simp only [content, dataB, extent, List.length_take]
      omega
  | abuf bs =>
      simp only [content, dataB, extent, List.length_take]
      omega

theorem getD_last_of_getLast? {bs : List Byte} (h : bs.getLast? = some 0) :
    bs.getD (bs.length - 1) 0 = 0 := by
  rw [List.getD_eq_getElem?_getD, ← List.getLast?_eq_getElem?, h]
  rfl

theorem checkFails_of_wt {c : Seq} (h : wellTerminated c = true) :
    catCheckFails c = false ∧ cutCheckFails c = false := by
  cases c with
  | chr k => exact ⟨rfl, rfl⟩
  | carr bs =>
      have h0 : bs.getLast? = some 0 := by simpa [wellTerminated] using h
      have hD : bs.getD (bs.length - 1) 0 = 0 := getD_last_of_getLast? h0
      have hD2 : bs[bs.length - 1]?.getD 0 = 0 := by
        rw [← List.getD_eq_getElem?_getD]
        exact hD
      constructor
      · unfold catCheckFails
        simp [sizeofB, dataB, hD2]
      · unfold cutCheckFails
        simp [sizeofB, extent, dataB, hD2]
  | abuf bs =>
      have h0 : bs.getLast? = some 0 := by simpa [wellTerminated] using h
      have hD : bs.getD (bs.length - 1) 0 = 0 := getD_last_of_getLast? h0
      have hD2 : bs[bs.length - 1]?.getD 0 = 0 := by
        rw [← List.getD_eq_getElem?_getD]
        exact hD
      constructor
      · unfold catCheckFails
        simp [sizeofB, dataB, hD2]
      · unfold cutCheckFails
        simp [sizeofB, extent, dataB, hD2]

theorem wt_extent_pos {c : Seq} (h : wellTerminated c = true) : 1 ≤ extent c := by
  cases c with
  | chr k => simp [extent]
  | carr bs =>
      cases bs with
      | nil => simp [wellTerminated] at h
      | cons b t => simp [extent]
  | abuf bs =>
      cases bs with
      | nil => simp [wellTerminated] at h
      | cons b t => simp [extent]

theorem fillZero_length {cap : Nat} {w : List Byte} (h : w.length ≤ cap) :
    (fillZero cap w).length = cap := by
  simp only [fillZero, List.length_append, List.length_replicate]
  omega

theorem fillZero_getLast {cap : Nat} {w : List Byte} (h : w.length < cap) :
    (fillZero cap w).getLast? = some 0 := by
  unfold fillZero
  rw [List.getLast?_append, List.getLast?_replicate, if_neg (by omega)]
  rfl

theorem fillZero_succ {w : List Byte} : fillZero (w.length + 1) w = w ++ [0] := by
  unfold fillZero
  simp

theorem take_sub_one_append_zero {bs : List Byte} (h : bs.getLast? = some 0) :
    bs.take (bs.length - 1) ++ [0] = bs := by
  have hne : bs ≠ [] := by
    intro he
    rw [he] at h
    simp at h
  rw [← List.dropLast_eq_take]
  have hg : bs.getLast hne = 0 := by
    have he := List.getLast?_eq_getLast_of_ne_nil hne
    rw [he] at h
    exact Option.some.inj h
  rw [← hg]
  exact List.dropLast_concat_getLast hne

/-- C6: for every properly terminated input, `cut` with its default
bounds (begin 0, end -1) returns exactly the buffer `cat` returns for
that single input: same static size (the input's extent), byte-for-byte
equal content, and both are a faithful copy of the input's bytes
(implicit terminator included for a lone `char`). -/
theorem cut_full_is_cat (check : Bool) (a : Seq) (h : wellTerminated a = true) :
    cut check 0 (-1) a = some (.ok (catBufBytes [] [a])) ∧
    cat check [] [a] = .ok (catBufBytes [] [a]) ∧
    catBufBytes [] [a] = seqBytes a := by
  have hN : 1 ≤ extent a := wt_extent_pos h
  have hNi : (1 : Int) ≤ (extent a : Int) := by exact_mod_cast hN
  have hfail := checkFails_of_wt h
  have hb : ind (extent a) 0 = 0 := by
    unfold ind
    rw [if_neg (by omega)]
  have he : ind (extent a) (-1) = (extent a : Int) - 1 := by
    unfold ind
    rw [if_pos (by omega)]
    ring
  have hwl : (catWritten [] [a]) = content a := rfl
  have hsz : (catSize ([] : List Byte).length ([a].map extent)).toNat = extent a := by
    show ((extent a : Int) + (0 : Nat) - 1 + (1 - (0 : Nat))).toNat = extent a
    omega
  have hbuf : catBufBytes [] [a] = content a ++ [0] := by
    unfold catBufBytes
    rw [hwl, hsz]
    unfold fillZero
    rw [content_length]
    have h1 : extent a - (extent a - 1) = 1 := by omega
    rw [h1]
    rfl
  refine ⟨?_, ?_, ?_⟩
  · unfold cut
    rw [hb, he, if_pos (by omega)]
    rw [hfail.2, Bool.and_false, if_neg (by simp)]
    rw [hbuf]
    have h2 : ((extent a : Int) - 1 - 0).toNat = extent a - 1 := by omega
    rw [h2, show Int.toNat 0 = 0 from rfl, List.drop_zero]
    show some (Except.ok (fillZero (extent a - 1 + 1) (content a)))
       = some (Except.ok (content a ++ [0]))
    unfold fillZero
    rw [content_length]
    have h3 : extent a - 1 + 1 - (extent a - 1) = 1 := by omega
    rw [h3]
    rfl
  · unfold cat
    rw [show ([a].any catCheckFails) = false by simp [hfail.1]]
    rw [Bool.and_false, if_neg (by simp)]
  · rw [hbuf]
    cases a with
    | chr k => rfl
    | carr bs =>
        have h0 : bs.getLast? = some 0 := by simpa [wellTerminated] using h
        show bs.take (bs.length - 1) ++ [0] = bs
        exact take_sub_one_append_zero h0
    | abuf bs =>
        have h0 : bs.getLast? = some 0 := by simpa [wellTerminated] using h
        show bs.take (bs.length - 1) ++ [0] = bs
        exact take_sub_one_append_zero h0

theorem cut_full_is_cat_witness :
    wellTerminated (Seq.carr [104, 105, 0]) = true ∧
    (cut true 0 (-1) (Seq.carr [104, 105, 0])
       = some (.ok (catBufBytes [] [Seq.carr [104, 105, 0]])) ∧
     cat true [] [Seq.carr [104, 105, 0]] = .ok (catBufBytes [] [Seq.carr [104, 105, 0]]) ∧
     catBufBytes [] [Seq.carr [104, 105, 0]] = seqBytes (Seq.carr [104, 105, 0])) :=
  ⟨by decide, cut_full_is_cat true (Seq.carr [104, 105, 0]) (by decide)⟩

theorem catLoop_append (sep : List Byte) :
    ∀ (cs : List Seq) (w : List Byte), w ≠ [] →
      catLoop sep cs w = w ++ (cs.map (fun c => sep ++ content c)).flatten := by
  intro cs
  induction cs with
  | nil =>
      intro w hw
      simp [catLoop]
  | cons c t ih =>
      intro w hw
      rw [catLoop, if_neg hw]
      rw [ih ((w ++ sep) ++ content c) (by simp [List.append_eq_nil, hw])]
      simp [List.flatten_cons]

theorem catLoop_nil_sep :
    ∀ (cs : List Seq) (w : List Byte),
      catLoop [] cs w = w ++ (cs.map content).flatten := by
  intro cs
  induction cs with
  | nil =>
      intro w
      simp [catLoop]
  | cons c t ih =>
      intro w
      rw [catLoop]
      have hif : (if w = [] then w else w ++ ([] : List Byte)) = w := by
        split <;> simp
      rw [hif, ih]
      simp [List.flatten_cons]

theorem sum_map_const_add (S : Nat) (g : Seq → Nat) :
    ∀ (t : List Seq), (t.map (fun x => S + g x)).sum = S * t.length + (t.map g).sum := by
  intro t
  induction t with
  | nil => simp
  | cons a t ih =>
      simp only [List.map_cons, List.sum_cons, List.length_cons, ih]
      ring

theorem sumM1_cast : ∀ (Ls : List Nat), (∀ L ∈ Ls, 1 ≤ L) →
    sumM1 Ls = (((Ls.map (fun L => L - 1)).sum : Nat) : Int) := by
  intro Ls
  induction Ls with
  | nil =>
      intro _
      rfl
  | cons L t ih =>
      intro h
      have h2 : sumM1 (L :: t) = (L : Int) - 1 + sumM1 t := rfl
      rw [h2, ih (fun x hx => h x (List.mem_cons_of_mem L hx))]
      have hL : 1 ≤ L := h L (List.mem_cons_self L t)
      simp only [List.map_cons, List.sum_cons]
      push_cast [hL]
      ring

theorem catSize_toNat (S : Nat) (Ls : List Nat) (hne : Ls ≠ [])
    (h : ∀ L ∈ Ls, 1 ≤ L) :
    (catSize S Ls).toNat = (Ls.map (fun L => L - 1)).sum + S * (Ls.length - 1) + 1 := by
  rw [catSize_eq, sumM1_cast Ls h]
  cases Ls with
  | nil => exact absurd rfl hne
  | cons L t =>
      simp only [List.length_cons]
      have hk : ((t.length + 1 : Nat) : Int) = (t.length : Int) + 1 := by push_cast; ring
      have hmul : (S : Int) * ((t.length + 1 : Nat) : Int) + 1 - S
          = (S : Int) * (t.length : Int) + 1 := by
        rw [hk]
        ring
      have hS : ((S * ((t.length + 1) - 1) : Nat) : Int) = (S : Int) * (t.length : Int) := by
        push_cast
        ring
      omega

theorem catBufBytes_join (sep : List Byte) (c : Seq) (cs : List Seq)
    (hex : ∀ x ∈ c :: cs, 1 ≤ extent x)
    (hfirst : 2 ≤ extent c ∨ sep = []) :
    catBufBytes sep (c :: cs) = specCatBytes sep (c :: cs) := by
  have hsz := catSize_toNat sep.length ((c :: cs).map extent) (by simp)
    (by intro L hL; rcases List.mem_map.mp hL with ⟨x, hx, hLx⟩; exact hLx ▸ hex x hx)
  rw [List.length_map, List.length_cons] at hsz
  have hsum : (((c :: cs).map extent).map (fun L => L - 1)).sum
      = ((c :: cs).map (fun x => extent x - 1)).sum := by
    rw [List.map_map]
    rfl
  rw [hsum, Nat.add_sub_cancel] at hsz
  rcases hfirst with h2 | hnil
  · have hcne : content c ≠ [] := by
      have := content_length c
      intro hemp
      rw [hemp] at this
      simp at this
      omega
    have hw : catWritten sep (c :: cs)
        = content c ++ (cs.map (fun x => sep ++ content x)).flatten := by
      unfold catWritten
      rw [catLoop, if_pos rfl, List.nil_append]
      exact catLoop_append sep cs (content c) hcne
    have hwlen : (catWritten sep (c :: cs)).length
        = ((c :: cs).map (fun x => extent x - 1)).sum + sep.length * cs.length := by
      rw [hw]
      simp only [List.length_append, List.length_flatten, List.map_map]
      have hmap : (cs.map (List.length ∘ fun x => sep ++ content x)).sum
          = (cs.map (fun x => sep.length + (extent x - 1))).sum := by
        congr 1
        apply List.map_congr_left
        intro x _
        simp [content_length]
      rw [hmap, sum_map_const_add sep.length (fun x => extent x - 1)]
      simp only [List.map_cons, List.sum_cons, content_length]
      ring
    unfold catBufBytes fillZero
    rw [hsz, hwlen]
    have hrep : ((c :: cs).map (fun x => extent x - 1)).sum
          + sep.length * cs.length + 1
          - (((c :: cs).map (fun x => extent x - 1)).sum + sep.length * cs.length) = 1 := by
      omega
    rw [hrep]
    unfold specCatBytes joinSep
    rw [hw]
    simp only [List.map_cons, List.map_map, List.append_assoc, List.replicate_one]
    congr 2
  · subst hnil
    have hw : catWritten [] (c :: cs) = ((c :: cs).map content).flatten :=
      catLoop_nil_sep (c :: cs) []
    have hwlen : (catWritten [] (c :: cs)).length
        = ((c :: cs).map (fun x => extent x - 1)).sum := by
      rw [hw]
      simp only [List.length_flatten, List.map_map]
      congr 1
      apply List.map_congr_left
      intro x _
      simp [content_length]
    unfold catBufBytes fillZero
    rw [hsz, hwlen]
    simp only [List.length_nil, Nat.zero_mul, Nat.add_zero]
    have hrep : ((c :: cs).map (fun x => extent x - 1)).sum + 1
          - ((c :: cs).map (fun x => extent x - 1)).sum = 1 := by
      omega
    rw [hrep]
    unfold specCatBytes joinSep
    rw [hw]
    simp only [List.map_cons]
    rw [List.flatten_cons]
    simp only [List.map_map, List.append_assoc, List.replicate_one]
    congr 2

/-- C2 counterexample: when the first input has reported length 1
(contributes zero content bytes) the write pointer is still at the
buffer start when the second input is processed, so the separator is
skipped: `cat<'-'>("", "x")` produces `{'x', 0, 0}` rather than the
`{'-', 'x', 0}` required by the claim, two properly terminated inputs
notwithstanding. -/
theorem cat_sep_skip_cx :
    cat true [45] [.carr [0], .carr [120, 0]] = .ok [120, 0, 0] ∧
    specCatBytes [45] [.carr [0], .carr [120, 0]] = [45, 120, 0] ∧
    ([120, 0, 0] : List Byte) ≠ [45, 120, 0] :=
  ⟨rfl, rfl, by decide⟩

/-- C2 amended: the separator is written before an input exactly when
some byte has already been written to the output; hence the claimed
content — each input's bytes with its terminator excluded, the full
separator sequence in declared order before every input except the
first, then the final terminator — is produced whenever the first
input has reported length at least 2 (so it contributes a byte), or
the separator list is empty. When every input preceding some input has
reported length 1 the separator before that input is skipped and the
bytes reserved for it remain 0 at the end of the buffer. -/
theorem cat_content_amended (check : Bool) (sep : List Byte) (c : Seq) (cs : List Seq)
    (hwt : ∀ x ∈ c :: cs, wellTerminated x = true)
    (hfirst : 2 ≤ extent c ∨ sep = []) :
    cat check sep (c :: cs) = .ok (specCatBytes sep (c :: cs)) := by
  have hany : ((c :: cs).any catCheckFails) = false := by
    rw [List.any_eq_false]
    intro x hx
    have hf := (checkFails_of_wt (hwt x hx)).1
    simp [hf]
  unfold cat
  rw [hany, Bool.and_false, if_neg (by simp)]
  have hex : ∀ x ∈ c :: cs, 1 ≤ extent x := fun x hx => wt_extent_pos (hwt x hx)
  rw [catBufBytes_join sep c cs hex hfirst]

theorem cat_content_amended_witness :
    (∀ x ∈ [Seq.carr [97, 0], Seq.carr [0], Seq.carr [98, 0]], wellTerminated x = true) ∧
    (2 ≤ extent (Seq.carr [97, 0]) ∨ ([45] : List Byte) = []) ∧
    cat true [45] [Seq.carr [97, 0], Seq.carr [0], Seq.carr [98, 0]]
      = .ok (specCatBytes [45] [Seq.carr [97, 0], Seq.carr [0], Seq.carr [98, 0]]) :=
  ⟨by decide, by decide,
   cat_content_amended true [45] (Seq.carr [97, 0]) [Seq.carr [0], Seq.carr [98, 0]]
     (by decide) (by decide)⟩

theorem eqLoop_of_le : ∀ (l r : List Byte), l.length ≤ r.length →
    eqLoop l r = some (decide (l = r.take l.length)) := by
  intro l
  induction l with
  | nil =>
      intro r _
      simp [eqLoop]
  | cons a l ih =>
      intro r h
      cases r with
      | nil => simp at h
      | cons b r =>
          rw [eqLoop]
          by_cases hab : a = b
          · subst hab
            rw [if_neg (by simp)]
            rw [ih r (by simpa using h)]
            congr 1
            rw [decide_eq_decide]
            simp
          · rw [if_pos (by simpa using hab)]
            have hth : ¬(a :: l = (b :: r).take (a :: l).length) := by
              simp only [List.length_cons, List.take_succ_cons]
              intro he
              injection he with h1 h2
              exact hab h1
            simp [hth]
            exact fun h1 => absurd h1 hab

theorem eqOp_arr (lhs bs : List Byte) : eqOp lhs (.carr bs) = some (decide (lhs = bs)) := by
  unfold eqOp
  by_cases hl : lhs.length = extent (.carr bs)
  · rw [if_pos hl]
    simp only [extent] at hl
    show eqLoop lhs bs = some (decide (lhs = bs))
    rw [eqLoop_of_le lhs bs (le_of_eq hl)]
    rw [hl, List.take_length]
  · rw [if_neg hl]
    simp only [extent] at hl
    have hne : lhs ≠ bs := by
      intro he
      exact hl (by rw [he])
    simp [hne]

theorem eqOp_buf (lhs bs : List Byte) : eqOp lhs (.abuf bs) = some (decide (lhs = bs)) := by
  unfold eqOp
  by_cases hl : lhs.length = extent (.abuf bs)
  · rw [if_pos hl]
    simp only [extent] at hl
    show eqLoop lhs bs = some (decide (lhs = bs))
    rw [eqLoop_of_le lhs bs (le_of_eq hl)]
    rw [hl, List.take_length]
  · rw [if_neg hl]
    simp only [extent] at hl
    have hne : lhs ≠ bs := by
      intro he
      exact hl (by rw [he])
    simp [hne]

/-- C8 counterexample: per the claim, the 2-byte buffer `{'c', 0}`
compared with the lone char `'c'` (access-protocol length 2, bytes
`'c'` then implicit terminator) must compare equal; but the loop, after
matching index 0, reads index 1 of `data(rhs)` — one past the single
`char` object — which is undefined behaviour and a constant-evaluation
failure, not `true`. -/
theorem eq_char_cx :
    specEq [99, 0] (.chr 99) = true ∧ eqOp [99, 0] (.chr 99) = none := by
  decide

/-- C8 amended: against a `char[N]` or `ntbs::array<N>` right-hand
side, `array<L> == rhs` holds iff `L = N` and the bytes at every index
in `[0, L)` are pairwise equal (iff the byte lists are equal); buffers
of differing static sizes compare unequal even when contents agree up
to a terminator, e.g. `cat("a\0") != "a"`. Against a lone `char`: the
result is `false` when `L ≠ 2`, and `false` when `L = 2` but the first
byte differs; when `L = 2` and the first byte matches, the loop reads
one past the single `char` object — undefined behaviour rather than the
claimed `true`. -/
theorem eq_op_amended (lhs bs : List Byte) (x y k : Byte)
    (hxk : x ≠ k) (h2 : lhs.length ≠ 2) :
    eqOp lhs (.carr bs) = some (decide (lhs = bs)) ∧
    eqOp lhs (.abuf bs) = some (decide (lhs = bs)) ∧
    eqOp lhs (.chr k) = some false ∧
    eqOp [x, y] (.chr k) = some false ∧
    eqOp [k, y] (.chr k) = none ∧
    cat true [] [.carr [97, 0, 0]] = .ok [97, 0, 0] ∧
    eqOp [97, 0, 0] (.carr [97, 0]) = some false := by
  refine ⟨eqOp_arr lhs bs, eqOp_buf lhs bs, ?_, ?_, ?_, rfl, rfl⟩
  · unfold eqOp
    rw [if_neg (by simpa [extent] using h2)]
  · unfold eqOp
    rw [if_pos (by simp [extent])]
    show eqLoop [x, y] [k] = some false
    rw [eqLoop]
    rw [if_pos (by simpa using hxk)]
  · unfold eqOp
    rw [if_pos (by simp [extent])]
    show eqLoop [k, y] [k] = none
    rw [eqLoop, if_neg (by simp)]
    rfl

theorem eq_op_amended_witness :
    (120 : Byte) ≠ 99 ∧ ([97, 0, 0] : List Byte).length ≠ 2 ∧
    (eqOp [97, 0, 0] (.carr [97, 0]) = some (decide (([97, 0, 0] : List Byte) = [97, 0])) ∧
     eqOp [97, 0, 0] (.abuf [97, 0]) = some (decide (([97, 0, 0] : List Byte) = [97, 0])) ∧
     eqOp [97, 0, 0] (.chr 99) = some false ∧
     eqOp [120, 0] (.chr 99) = some false ∧
     eqOp [99, 0] (.chr 99) = none ∧
     cat true [] [.carr [97, 0, 0]] = .ok [97, 0, 0] ∧
     eqOp [97, 0, 0] (.carr [97, 0]) = some false) :=
  ⟨by decide, by decide, eq_op_amended [97, 0, 0] [97, 0] 120 0 99 (by decide) (by decide)⟩

theorem catWritten_le (sep : List Byte) :
    ∀ (cs : List Seq), (catWritten sep cs).length
      ≤ (cs.map (fun x => extent x - 1)).sum + sep.length * (cs.length - 1) := by
  intro cs
  induction cs with
  | nil => simp [catWritten, catLoop]
  | cons c t ih =>
      by_cases hc : content c = []
      · have hstep : catWritten sep (c :: t) = catWritten sep t := by
          unfold catWritten
          rw [catLoop, if_pos rfl, List.nil_append, hc]
        rw [hstep]
        calc (catWritten sep t).length
            ≤ (t.map (fun x => extent x - 1)).sum + sep.length * (t.length - 1) := ih
          _ ≤ ((c :: t).map (fun x => extent x - 1)).sum
                + sep.length * ((c :: t).length - 1) := by
              simp only [List.map_cons, List.sum_cons, List.length_cons]
              have hmul : sep.length * (t.length - 1) ≤ sep.length * (t.length + 1 - 1) :=
                Nat.mul_le_mul_left _ (by omega)
              omega
      · have hw : catWritten sep (c :: t)
            = content c ++ (t.map (fun x => sep ++ content x)).flatten := by
          unfold catWritten
          rw [catLoop, if_pos rfl, List.nil_append]
          exact catLoop_append sep t (content c) hc
        rw [hw]
        simp only [List.length_append, List.length_flatten, List.map_map]
        have hmap : (t.map (List.length ∘ fun x => sep ++ content x)).sum
            = (t.map (fun x => sep.length + (extent x - 1))).sum := by
          congr 1
          apply List.map_congr_left
          intro x _
          simp [content_length]
        rw [hmap, sum_map_const_add sep.length (fun x => extent x - 1), content_length]
        simp only [List.map_cons, List.sum_cons, List.length_cons, Nat.add_sub_cancel]
        omega

theorem catSize_toNat_seq (sep : List Byte) (c : Seq) (t : List Seq)
    (hex : ∀ x ∈ c :: t, 1 ≤ extent x) :
    (catSize sep.length ((c :: t).map extent)).toNat
      = ((c :: t).map (fun x => extent x - 1)).sum + sep.length * t.length + 1 := by
  have hsz := catSize_toNat sep.length ((c :: t).map extent) (by simp)
    (by intro L hL; rcases List.mem_map.mp hL with ⟨x, hx, hLx⟩; exact hLx ▸ hex x hx)
  rw [List.length_map, List.length_cons, Nat.add_sub_cancel] at hsz
  rw [hsz, List.map_map]
  rfl

/-- C10: every buffer returned by `cat` or `cut` ends in the byte 0 at
its last index, and every position the copy loop never reaches holds 0,
for all inputs — non-null-terminated inputs with the check disabled
included — because the result array is value-initialized to zeros and
the loop writes at most (static size - 1) bytes from position 0 onward;
no terminator byte is ever explicitly written. -/
theorem buffers_zero_terminated (check : Bool) (sep : List Byte) (cs : List Seq)
    (B E : Int) (a : Seq) (res : List Byte)
    (hex : ∀ c ∈ cs, 1 ≤ extent c)
    (hv : 1 ≤ catSize sep.length (cs.map extent))
    (hcut : cut check B E a = some (.ok res)) :
    (catBufBytes sep cs).length = (catSize sep.length (cs.map extent)).toNat ∧
    (catWritten sep cs).length < (catSize sep.length (cs.map extent)).toNat ∧
    (catBufBytes sep cs).getLast? = some 0 ∧
    (catBufBytes sep cs).drop (catWritten sep cs).length
      = List.replicate
          ((catSize sep.length (cs.map extent)).toNat - (catWritten sep cs).length) 0 ∧
    res.getLast? = some 0 ∧
    res.length = (ind (extent a) E - ind (extent a) B).toNat + 1 := by
  have hwlt : (catWritten sep cs).length < (catSize sep.length (cs.map extent)).toNat := by
    cases cs with
    | nil =>
        have h0 : catSize sep.length (([] : List Seq).map extent)
            = 1 - (sep.length : Int) := rfl
        rw [h0] at hv ⊢
        show ([] : List Byte).length < _
        simp only [List.length_nil]
        omega
    | cons c t =>
        rw [catSize_toNat_seq sep c t hex]
        have hle := catWritten_le sep (c :: t)
        simp only [List.length_cons, Nat.add_sub_cancel] at hle
        omega
  refine ⟨?_, hwlt, ?_, ?_, ?_, ?_⟩
  · unfold catBufBytes
    exact fillZero_length (Nat.le_of_lt hwlt)
  · unfold catBufBytes
    exact fillZero_getLast hwlt
  · unfold catBufBytes fillZero
    exact List.drop_left _ _
  · unfold cut at hcut
    split at hcut
    · rw [Option.some_inj] at hcut
      split at hcut
      · exact Except.noConfusion hcut
      · have hres : res = fillZero ((ind (extent a) E - ind (extent a) B).toNat + 1)
            (((dataB a).drop (ind (extent a) B).toNat).take
              (ind (extent a) E - ind (extent a) B).toNat) :=
          (Except.ok.inj hcut).symm
        rw [hres]
        apply fillZero_getLast
        rw [List.length_take]
        omega
    · exact Option.noConfusion hcut
  · unfold cut at hcut
    split at hcut
    · rw [Option.some_inj] at hcut
      split at hcut
      · exact Except.noConfusion hcut
      · have hres : res = fillZero ((ind (extent a) E - ind (extent a) B).toNat + 1)
            (((dataB a).drop (ind (extent a) B).toNat).take
              (ind (extent a) E - ind (extent a) B).toNat) :=
          (Except.ok.inj hcut).symm
        rw [hres]
        apply fillZero_length
        rw [List.length_take]
        omega
    · exact Option.noConfusion hcut

theorem buffers_zero_terminated_witness :
    (∀ c ∈ [Seq.carr [97, 98]], 1 ≤ extent c) ∧
    1 ≤ catSize ([32] : List Byte).length ([Seq.carr [97, 98]].map extent) ∧
    cut false 0 (-1) (Seq.carr [99, 100]) = some (.ok [99, 0]) ∧
    ((catBufBytes [32] [Seq.carr [97, 98]]).length
       = (catSize ([32] : List Byte).length ([Seq.carr [97, 98]].map extent)).toNat ∧
     (catWritten [32] [Seq.carr [97, 98]]).length
       < (catSize ([32] : List Byte).length ([Seq.carr [97, 98]].map extent)).toNat ∧
     (catBufBytes [32] [Seq.carr [97, 98]]).getLast? = some 0 ∧
     (catBufBytes [32] [Seq.carr [97, 98]]).drop (catWritten [32] [Seq.carr [97, 98]]).length
       = List.replicate
           ((catSize ([32] : List Byte).length ([Seq.carr [97, 98]].map extent)).toNat
             - (catWritten [32] [Seq.carr [97, 98]]).length) 0 ∧
     ([99, 0] : List Byte).getLast? = some 0 ∧
     ([99, 0] : List Byte).length
       = (ind (extent (Seq.carr [99, 100])) (-1) - ind (extent (Seq.carr [99, 100])) 0).toNat + 1) :=
  ⟨by decide, by decide, rfl,
   buffers_zero_terminated false [32] [Seq.carr [97, 98]] 0 (-1) (Seq.carr [99, 100]) [99, 0]
     (by decide) (by decide) rfl⟩

end ntbs
